import Mathlib

/-!
Shallow embedding of the core logic of the `tradingview-draggable-price-lines`
repository: the mock forex price generator and M5 bar aggregator
(`src/lib/mock-forex-stream.ts`, `src/lib/aggregate-ticks.ts`), the SL/TP
validity and update handlers (`src/App.tsx`), and the risk-level allocation
arithmetic (`src/components/place-trades-card.tsx`).  Prices and lots are
modelled as exact rationals, times as naturals/integers; the JavaScript
random draws are injected as explicit parameters.
-/

/-- EURUSD quote precision scale (`PRICE_SCALE = 10 ** EURUSD_PRECISION`,
`mock-forex-stream.ts`). -/
def PRICE_SCALE : ℕ := 100000

/-- M5 bar width in seconds (`M5_PERIOD_SECONDS`, `aggregate-ticks.ts`). -/
def M5_PERIOD_SECONDS : ℕ := 300

/-- `roundToPrecision` from `mock-forex-stream.ts`:
`Math.round(price * PRICE_SCALE) / PRICE_SCALE`, with JS
`Math.round x = ⌊x + 1/2⌋`. -/
def roundToPrecision (price : ℚ) : ℚ :=
  (⌊price * (PRICE_SCALE : ℚ) + 1/2⌋ : ℚ) / (PRICE_SCALE : ℚ)

/-- `ForexTick` from `mock-forex-stream.ts`. -/
structure ForexTick where
  time : ℕ
  price : ℚ
deriving DecidableEq, Repr

/-- `OhlcBar` from `aggregate-ticks.ts` (the source field `open` is a Lean
keyword, rendered here as `opn`). -/
structure OhlcBar where
  time : ℕ
  opn : ℚ
  high : ℚ
  low : ℚ
  close : ℚ
deriving DecidableEq, Repr

/-- `BarState` from `aggregate-ticks.ts`: the held in-progress bar. -/
structure BarState where
  barTime : ℕ
  opn : ℚ
  high : ℚ
  low : ℚ
  close : ℚ
deriving DecidableEq, Repr

/-- The 300-second bucket of a tick time:
`Math.floor(tick.time / M5_PERIOD_SECONDS) * M5_PERIOD_SECONDS`. -/
def bucketOf (time : ℕ) : ℕ :=
  time / M5_PERIOD_SECONDS * M5_PERIOD_SECONDS

/-- `applyTick` from `createM5Aggregator` (`aggregate-ticks.ts`), as a state
transition: `state === null || barTime > state.barTime` starts a fresh bar,
otherwise the held bar is extended.  The returned `OhlcBar` mirrors the new
state (see `barOfState`). -/
def applyTick (state : Option BarState) (tick : ForexTick) : BarState :=
  let barTime := bucketOf tick.time
  match state with
  | none => ⟨barTime, tick.price, tick.price, tick.price, tick.price⟩
  | some s =>
    if s.barTime < barTime then
      ⟨barTime, tick.price, tick.price, tick.price, tick.price⟩
    else
      ⟨s.barTime, s.opn, max s.high tick.price, min s.low tick.price, tick.price⟩

/-- The bar returned by `applyTick` is a copy of the new held state. -/
def barOfState (s : BarState) : OhlcBar :=
  ⟨s.barTime, s.opn, s.high, s.low, s.close⟩

/-- Repeated application of `applyTick`, collecting the returned bars. -/
def runAggregator : Option BarState → List ForexTick → List OhlcBar
  | _, [] => []
  | state, t :: ts =>
    let s' := applyTick state t
    barOfState s' :: runAggregator (some s') ts

/-- Well-formedness of a held bar state: 300-aligned time and OHLC order. -/
def StateWF (s : BarState) : Prop :=
  s.barTime % M5_PERIOD_SECONDS = 0 ∧
  s.low ≤ s.opn ∧ s.opn ≤ s.high ∧ s.low ≤ s.close ∧ s.close ≤ s.high

theorem bucketOf_mod (t : ℕ) : bucketOf t % M5_PERIOD_SECONDS = 0 := by
  simp [bucketOf, Nat.mul_mod_left]

theorem applyTick_wf (state : Option BarState) (tick : ForexTick)
    (h : ∀ s, state = some s → StateWF s) : StateWF (applyTick state tick) := by
  cases state with
  | none =>
    refine ⟨bucketOf_mod _, le_refl _, le_refl _, le_refl _, le_refl _⟩
  | some s =>
    have hs := h s rfl
    by_cases hlt : s.barTime < bucketOf tick.time
    · simp only [applyTick, if_pos hlt]
      exact ⟨bucketOf_mod _, le_refl _, le_refl _, le_refl _, le_refl _⟩
    · simp only [applyTick, if_neg hlt]
      obtain ⟨hmod, h1, h2, h3, h4⟩ := hs
      refine ⟨hmod, le_trans (min_le_left _ _) h1,
        le_trans h2 (le_max_left _ _), min_le_right _ _, le_max_right _ _⟩

theorem applyTick_barTime_le (s : BarState) (tick : ForexTick) :
    s.barTime ≤ (applyTick (some s) tick).barTime := by
  by_cases hlt : s.barTime < bucketOf tick.time
  · simp only [applyTick, if_pos hlt]
    exact le_of_lt hlt
  · simp only [applyTick, if_neg hlt]
    exact le_refl _

theorem runAggregator_wf (ticks : List ForexTick) :
    ∀ (state : Option BarState), (∀ s, state = some s → StateWF s) →
    ∀ b ∈ runAggregator state ticks,
      b.time % M5_PERIOD_SECONDS = 0 ∧
      b.low ≤ b.opn ∧ b.opn ≤ b.high ∧ b.low ≤ b.close ∧ b.close ≤ b.high := by
  induction ticks with
  | nil => intro state _ b hb; simp [runAggregator] at hb
  | cons t ts ih =>
    intro state hstate b hb
    simp only [runAggregator, List.mem_cons] at hb
    have hwf : StateWF (applyTick state t) := applyTick_wf state t hstate
    rcases hb with hb | hb
    · subst hb
      exact hwf
    · exact ih (some (applyTick state t)) (fun s hs => by cases hs; exact hwf) b hb

theorem runAggregator_chain (ticks : List ForexTick) :
    ∀ (s : BarState),
      List.Chain (· ≤ ·) s.barTime ((runAggregator (some s) ticks).map OhlcBar.time) := by
  induction ticks with
  | nil => intro s; simp [runAggregator]
  | cons t ts ih =>
    intro s
    simp only [runAggregator, List.map_cons]
    exact List.Chain.cons (applyTick_barTime_le s t) (ih (applyTick (some s) t))

/-- Claim C4: for ticks with non-decreasing times, the aggregator's output
bars have non-decreasing, 300-aligned times, each bar satisfies
`low ≤ open, close ≤ high`, a tick in a strictly later bucket (or with no
held bar) opens a fresh bar with `open = high = low = close = price`, and
otherwise the held bar is extended with `high = max`, `low = min`,
`close = price`, keeping the held bar's time. -/
theorem claim_C4_aggregator (ticks : List ForexTick)
    (hmono : List.Chain' (fun a b => a.time ≤ b.time) ticks) :
    List.Chain' (· ≤ ·) ((runAggregator none ticks).map OhlcBar.time) ∧
    (∀ b ∈ runAggregator none ticks,
      b.time % M5_PERIOD_SECONDS = 0 ∧
      b.low ≤ b.opn ∧ b.opn ≤ b.high ∧ b.low ≤ b.close ∧ b.close ≤ b.high) ∧
    (∀ t : ForexTick, applyTick none t =
      ⟨bucketOf t.time, t.price, t.price, t.price, t.price⟩) ∧
    (∀ (s : BarState) (t : ForexTick), s.barTime < bucketOf t.time →
      applyTick (some s) t =
        ⟨bucketOf t.time, t.price, t.price, t.price, t.price⟩) ∧
    (∀ (s : BarState) (t : ForexTick), ¬ s.barTime < bucketOf t.time →
      applyTick (some s) t =
        ⟨s.barTime, s.opn, max s.high t.price, min s.low t.price, t.price⟩) := by
  refine ⟨?_, ?_, ?_, ?_, ?_⟩
  · cases ticks with
    | nil => simp [runAggregator]
    | cons t ts =>
      simp only [runAggregator, List.map_cons]
      exact runAggregator_chain ts (applyTick none t)
  · exact runAggregator_wf ticks none (by intro s hs; cases hs)
  · intro t; rfl
  · intro s t hlt; simp [applyTick, if_pos hlt]
  · intro s t hlt; simp [applyTick, if_neg hlt]

/-- Witness for C4 at a concrete two-tick input. -/
theorem claim_C4_aggregator_witness :
    List.Chain' (· ≤ ·)
      ((runAggregator none [⟨10, 1⟩, ⟨320, 2⟩]).map OhlcBar.time) :=
  (claim_C4_aggregator [⟨10, 1⟩, ⟨320, 2⟩]
    (by rw [List.chain'_pair]; decide)).1

/-- Claim C10: a tick whose bucket is strictly earlier than the held bar's
bucket does not start a new bar and is not ignored: it is folded into the
held bar exactly like a same-bucket tick, and the time is kept. -/
theorem claim_C10_out_of_order_tick (s : BarState) (t : ForexTick)
    (hearly : bucketOf t.time < s.barTime) :
    applyTick (some s) t =
      ⟨s.barTime, s.opn, max s.high t.price, min s.low t.price, t.price⟩ := by
  have hnot : ¬ s.barTime < bucketOf t.time := not_lt_of_gt hearly
  simp [applyTick, if_neg hnot]

/-- Witness for C10: a tick from bucket 0 delivered while bar 600 is held. -/
theorem claim_C10_out_of_order_tick_witness :
    applyTick (some ⟨600, 1, 3, 1, 2⟩) ⟨10, 5⟩ = ⟨600, 1, 5, 1, 5⟩ := by
  have h := claim_C10_out_of_order_tick ⟨600, 1, 3, 1, 2⟩ ⟨10, 5⟩ (by decide)
  simpa using h

/-- Trade side (`type Side = "buy" | "sell"`). -/
inductive Side where
  | buy
  | sell
deriving DecidableEq, Repr

/-- SL/TP line selector (`lineType: "sl" | "tp"`). -/
inductive LineType where
  | sl
  | tp
deriving DecidableEq, Repr

/-- `TradeLog` as used by `App.tsx`: a placed position with optional single
SL/TP prices (`handleRemoveSlTp` sets them to `null`) and lock flags. -/
structure TradeLog where
  id : ℕ
  timestamp : ℕ
  side : Side
  lots : ℚ
  entryPrice : ℚ
  stopLoss : Option ℚ
  takeProfit : Option ℚ
  visible : Bool
  lockedPosition : Bool
  lockedSl : Bool
  lockedTp : Bool
deriving DecidableEq, Repr

/-- `isValidSlTpPrice` from `App.tsx`: the side/type validity table.  The
source's trailing `return false` is unreachable because both line types are
covered in each branch. -/
def isValidSlTpPrice (trade : TradeLog) (lineType : LineType) (newPrice : ℚ) : Bool :=
  match trade.side, lineType with
  | .buy, .sl => newPrice < trade.entryPrice
  | .buy, .tp => newPrice > trade.entryPrice
  | .sell, .sl => newPrice > trade.entryPrice
  | .sell, .tp => newPrice < trade.entryPrice

/-- The update applied to a matching, valid trade by `handleTradePriceUpdate`:
`{...trade, [lineType === "sl" ? "stopLoss" : "takeProfit"]: newPrice}`. -/
def setTradePrice (trade : TradeLog) (lineType : LineType) (newPrice : ℚ) : TradeLog :=
  match lineType with
  | .sl => { trade with stopLoss := some newPrice }
  | .tp => { trade with takeProfit := some newPrice }

/-- `handleTradePriceUpdate` from `App.tsx`: maps over the trade list,
updating the matching trade only when `isValidSlTpPrice` accepts the new
price.  The toast bookkeeping in the source does not touch trade state
(`ENABLE_TOASTS` is `false`) and is omitted. -/
def handleTradePriceUpdate (trades : List TradeLog) (tradeId : ℕ)
    (lineType : LineType) (newPrice : ℚ) : List TradeLog :=
  trades.map fun trade =>
    if trade.id = tradeId ∧ isValidSlTpPrice trade lineType newPrice then
      setTradePrice trade lineType newPrice
    else trade

/-- Claim C1: an `updatePrice` request is accepted exactly when the side/type
table allows it; an invalid request leaves the whole trade state unchanged,
and a valid request sets the targeted level's price to exactly the requested
price, leaving every other trade unchanged. -/
theorem claim_C1_update_price (trades : List TradeLog) (tradeId : ℕ)
    (lineType : LineType) (newPrice : ℚ) :
    (∀ tr : TradeLog,
      isValidSlTpPrice tr lineType newPrice = true ↔
        ((tr.side = .buy ∧ lineType = .sl ∧ newPrice < tr.entryPrice) ∨
         (tr.side = .buy ∧ lineType = .tp ∧ newPrice > tr.entryPrice) ∨
         (tr.side = .sell ∧ lineType = .sl ∧ newPrice > tr.entryPrice) ∨
         (tr.side = .sell ∧ lineType = .tp ∧ newPrice < tr.entryPrice))) ∧
    ((∀ tr ∈ trades, tr.id = tradeId →
        isValidSlTpPrice tr lineType newPrice = false) →
      handleTradePriceUpdate trades tradeId lineType newPrice = trades) ∧
    (∀ i (hi : i < trades.length),
      (handleTradePriceUpdate trades tradeId lineType newPrice).get
          ⟨i, by simpa [handleTradePriceUpdate] using hi⟩ =
        (if (trades.get ⟨i, hi⟩).id = tradeId ∧
            isValidSlTpPrice (trades.get ⟨i, hi⟩) lineType newPrice = true then
          setTradePrice (trades.get ⟨i, hi⟩) lineType newPrice
        else trades.get ⟨i, hi⟩)) := by
  refine ⟨?_, ?_, ?_⟩
  · intro tr
    cases hside : tr.side <;> cases lineType <;>
      simp [isValidSlTpPrice, hside, decide_eq_true_eq, lt_iff_lt_of_le_iff_le]
  · intro hall
    have : ∀ tr ∈ trades,
        (if tr.id = tradeId ∧ isValidSlTpPrice tr lineType newPrice then
          setTradePrice tr lineType newPrice
        else tr) = tr := by
      intro tr htr
      rcases Decidable.em (tr.id = tradeId) with hid | hid
      · have hv := hall tr htr hid
        rw [if_neg]
        rintro ⟨-, hvalid⟩
        rw [hall tr htr hid] at hvalid
        exact Bool.false_ne_true hvalid
      · rw [if_neg]
        rintro ⟨h1, -⟩
        exact hid h1
    calc handleTradePriceUpdate trades tradeId lineType newPrice
        = trades.map id := List.map_congr_left (by simpa [handleTradePriceUpdate] using this)
      _ = trades := List.map_id trades
  · intro i hi
    simp [handleTradePriceUpdate, List.get_eq_getElem]

/-- Witness for C1: a rejected SL update on a BUY trade is a no-op. -/
theorem claim_C1_update_price_witness :
    handleTradePriceUpdate
      [⟨7, 0, .buy, 1, 11/10, none, none, true, false, false, false⟩]
      7 .sl (6/5) =
      [⟨7, 0, .buy, 1, 11/10, none, none, true, false, false, false⟩] :=
  (claim_C1_update_price
      [⟨7, 0, .buy, 1, 11/10, none, none, true, false, false, false⟩]
      7 .sl (6/5)).2.1 (by
        intro tr htr hid
        simp only [List.mem_singleton] at htr
        subst htr
        norm_num [isValidSlTpPrice])

/-- `RegimeType` from `mock-forex-stream.ts`. -/
inductive RegimeType where
  | RANGE
  | TREND
  | SPIKE
deriving DecidableEq, Repr

/-- `RegimeState` from `mock-forex-stream.ts` (the source field `type` keeps
its name). -/
structure RegimeState where
  type : RegimeType
  drift : ℚ
  volatility : ℚ
  ticksRemaining : ℤ
deriving DecidableEq, Repr

/-- `ResolvedOptions` from `mock-forex-stream.ts` (defaults spread with user
options); `initialPrice` is passed separately where needed. -/
structure StreamOptions where
  basePrice : ℚ
  min : ℚ
  max : ℚ
  intervalMs : ℕ
  timeStepSeconds : ℕ
  meanReversion : ℚ
deriving DecidableEq, Repr

/-- The `DEFAULTS` object from `mock-forex-stream.ts`. -/
def DEFAULTS : StreamOptions :=
  ⟨1.08, 1.05, 1.15, 300, 1, 0.03⟩

/-- `nextPrice` from `mock-forex-stream.ts`.  The Box–Muller draw
`randomNormal(0, volatility)` is injected as the explicit `noise` parameter;
the function returns the emitted price together with the regime whose
volatility was smoothed by `0.9 * old + 0.1 * |noise|`. -/
def nextPrice (price : ℚ) (regime : RegimeState) (opts : StreamOptions)
    (noise : ℚ) : ℚ × RegimeState :=
  let next := price + regime.drift + noise
  let next2 :=
    if regime.type = RegimeType.RANGE then
      next + (opts.basePrice - next) * opts.meanReversion
    else next
  (roundToPrecision (min opts.max (max opts.min next2)),
   { regime with volatility := 0.9 * regime.volatility + 0.1 * |noise| })

/-- Counterexample to C3 as stated: with `min = 1`, `max = 1.000006` (not a
multiple of the 1e-5 price grid) and input price `1.000006 ∈ [min, max]`, one
step returns `1.00001 > max`: the final rounding leaves the clamp interval. -/
theorem claim_C3_counterexample :
    (1 : ℚ) ≤ 1 + 6/1000000 ∧ (1 + 6/1000000 : ℚ) ≤ 1 + 6/1000000 ∧
    ¬ ((nextPrice (1 + 6/1000000) ⟨.TREND, 0, 1/10000, 30⟩
          ⟨1, 1, 1 + 6/1000000, 300, 1, 3/100⟩ 0).1 ≤ 1 + 6/1000000) := by
  refine ⟨by norm_num, le_refl _, ?_⟩
  have h1 : (nextPrice (1 + 6/1000000) ⟨.TREND, 0, 1/10000, 30⟩
      ⟨1, 1, 1 + 6/1000000, 300, 1, 3/100⟩ 0).1 =
      roundToPrecision (1 + 6/1000000) := by
    simp only [nextPrice,
      if_neg (show ¬(RegimeType.TREND = RegimeType.RANGE) from by decide)]
    norm_num
  rw [h1]
  unfold roundToPrecision PRICE_SCALE
  norm_num

theorem roundToPrecision_mem_grid (a b : ℤ) (c : ℚ)
    (h1 : (a : ℚ)/100000 ≤ c) (h2 : c ≤ (b : ℚ)/100000) :
    (a : ℚ)/100000 ≤ roundToPrecision c ∧ roundToPrecision c ≤ (b : ℚ)/100000 := by
  unfold roundToPrecision PRICE_SCALE
  push_cast
  have h100 : (0 : ℚ) < 100000 := by norm_num
  have ha : a ≤ ⌊c * 100000 + 1/2⌋ := by
    apply Int.le_floor.mpr
    have : (a : ℚ) ≤ c * 100000 := by
      rw [div_le_iff₀ h100] at h1
      linarith
    linarith
  have hb : ⌊c * 100000 + 1/2⌋ ≤ b := by
    have hlt : c * 100000 + 1/2 < (b : ℚ) + 1 := by
      rw [le_div_iff₀ h100] at h2
      linarith
    have := Int.floor_lt.mpr (by exact_mod_cast hlt : c * 100000 + 1/2 < ((b + 1 : ℤ) : ℚ))
    omega
  constructor
  · exact (div_le_div_iff_of_pos_right h100).mpr (by exact_mod_cast ha)
  · exact (div_le_div_iff_of_pos_right h100).mpr (by exact_mod_cast hb)

/-- Claim C3 (amended): one generator step keeps the price in `[min, max]`
provided `min` and `max` lie on the 1e-5 price grid (as the defaults
`1.05`/`1.15` do); for off-grid bounds the final rounding can escape the
interval (see the counterexample). -/
theorem claim_C3_nextPrice_clamped (opts : StreamOptions) (regime : RegimeState)
    (price noise : ℚ) (a b : ℤ)
    (hmin : opts.min = (a : ℚ) / 100000) (hmax : opts.max = (b : ℚ) / 100000)
    (hle : opts.min ≤ opts.max)
    (hp1 : opts.min ≤ price) (hp2 : price ≤ opts.max) :
    opts.min ≤ (nextPrice price regime opts noise).1 ∧
    (nextPrice price regime opts noise).1 ≤ opts.max := by
  have hfst : (nextPrice price regime opts noise).1 =
      roundToPrecision (min opts.max (max opts.min
        (if regime.type = RegimeType.RANGE then
          (price + regime.drift + noise) +
            (opts.basePrice - (price + regime.drift + noise)) * opts.meanReversion
        else price + regime.drift + noise))) := rfl
  rw [hfst]
  set x := (if regime.type = RegimeType.RANGE then
          (price + regime.drift + noise) +
            (opts.basePrice - (price + regime.drift + noise)) * opts.meanReversion
        else price + regime.drift + noise) with hx
  have hlow : opts.min ≤ min opts.max (max opts.min x) :=
    le_min hle (le_max_left _ _)
  have hhigh : min opts.max (max opts.min x) ≤ opts.max := min_le_left _ _
  rw [hmin, hmax] at hlow hhigh ⊢
  exact roundToPrecision_mem_grid a b _ hlow hhigh

/-- Witness for the amended C3 at the default configuration. -/
theorem claim_C3_nextPrice_clamped_witness :
    DEFAULTS.min ≤ (nextPrice 1.08 ⟨.RANGE, 0, 1/20000, 100⟩ DEFAULTS 0).1 ∧
    (nextPrice 1.08 ⟨.RANGE, 0, 1/20000, 100⟩ DEFAULTS 0).1 ≤ DEFAULTS.max :=
  claim_C3_nextPrice_clamped DEFAULTS ⟨.RANGE, 0, 1/20000, 100⟩ 1.08 0
    105000 115000 (by norm_num [DEFAULTS]) (by norm_num [DEFAULTS])
    (by norm_num [DEFAULTS]) (by norm_num [DEFAULTS]) (by norm_num [DEFAULTS])

/-- `sliderToPercent` from `place-trades-card.tsx`:
`minPercent * (maxPercent/minPercent) ** (sliderValue/100)` with
`minPercent = 0.1`, `maxPercent = 100`.  The JS float arithmetic is
idealised as exact reals. -/
noncomputable def sliderToPercent (sliderValue : ℝ) : ℝ :=
  let minPercent : ℝ := 0.1
  let maxPercent : ℝ := 100
  minPercent * (maxPercent / minPercent) ^ (sliderValue / 100)

/-- `percentToSlider` from `place-trades-card.tsx`:
`(Math.log(percent/minPercent) / Math.log(maxPercent/minPercent)) * 100`. -/
noncomputable def percentToSlider (percent : ℝ) : ℝ :=
  let minPercent : ℝ := 0.1
  let maxPercent : ℝ := 100
  Real.log (percent / minPercent) / Real.log (maxPercent / minPercent) * 100

/-- Claim C5: for every percent in `[0.1, 100]` the two slider mappings
round-trip within `1e-6` relative error (in the exact-real model the
round-trip is exact, so the bound holds with slack). -/
theorem claim_C5_slider_roundtrip (p : ℝ) (h1 : 0.1 ≤ p) (h2 : p ≤ 100) :
    |sliderToPercent (percentToSlider p) - p| ≤ 1e-6 * p := by
  have hp : (0 : ℝ) < p := lt_of_lt_of_le (by norm_num) h1
  have hratio : (100 : ℝ) / 0.1 = 1000 := by norm_num
  have hdiv : (0 : ℝ) < p / 0.1 := by positivity
  have key : sliderToPercent (percentToSlider p) = p := by
    unfold sliderToPercent percentToSlider
    simp only [hratio]
    rw [mul_div_assoc, div_self (by norm_num : (100:ℝ) ≠ 0), mul_one]
    rw [show Real.log (p / 0.1) / Real.log 1000 = Real.logb 1000 (p / 0.1) from rfl]
    rw [Real.rpow_logb (by norm_num) (by norm_num) hdiv]
    field_simp
  rw [key]
  simp only [sub_self, abs_zero]
  positivity

/-- Witness for C5 at `p = 1`. -/
theorem claim_C5_slider_roundtrip_witness :
    |sliderToPercent (percentToSlider 1) - 1| ≤ 1e-6 * 1 :=
  claim_C5_slider_roundtrip 1 (by norm_num) (by norm_num)

/-- `SlTpLevel` from `place-trades-card.tsx`; the string level ids
(`"tp-1"`, `"sl-2"`, ...) are modelled by their numeric part. -/
structure SlTpLevel where
  id : ℕ
  price : ℚ
  lots : ℚ
  locked : Bool
deriving DecidableEq, Repr

/-- `levels.reduce((sum, l) => sum + l.lots, 0)`, the lots total used
throughout `place-trades-card.tsx`. -/
def sumLots (levels : List SlTpLevel) : ℚ :=
  (levels.map (·.lots)).sum

/-- `getRemainingLots` from `place-trades-card.tsx`:
`Math.max(0, totalLots - total)`. -/
def getRemainingLots (levels : List SlTpLevel) (totalLots : ℚ) : ℚ :=
  max 0 (totalLots - sumLots levels)

/-- Modelled from the spec: the `addLevel` operation of the position risk
manager.  Only its UI callers appear in `src` (the `onAddLevel` prop of
`place-trades-card.tsx`); the handler that stores the new level is missing,
so it is taken from the spec's words: requested lots are clamped to
`min(lots, position.lots − Σ existing level lots)` and the call is a no-op
when the remaining capacity is ≤ 0.  The fresh id mirrors
`` `tp-${levels.length + 1}` `` from the creation flow. -/
def addLevel (levels : List SlTpLevel) (totalLots : ℚ) (price lots : ℚ) :
    List SlTpLevel :=
  let remaining := totalLots - sumLots levels
  if remaining ≤ 0 then levels
  else levels ++ [⟨levels.length + 1, price, min lots remaining, false⟩]

/-- `updateLots` through the public API.  The capping is the lots-input
`onBlur` path of `place-trades-card.tsx` (`sumOfOthers`, `maxAllowed`,
`newLots`, `cappedLots`), and locked levels are skipped (the input and
slider are disabled and guarded for locked levels).  The final store
(`onUpdateLevelLots` has no handler in `src`) is modelled from the spec:
set the level's lots to the capped value. -/
def updateLots (levels : List SlTpLevel) (totalLots : ℚ) (levelId : ℕ)
    (input : ℚ) : List SlTpLevel :=
  match levels.find? (fun l => l.id == levelId) with
  | none => levels
  | some level =>
    if level.locked then levels
    else
      let sumOfOthers := sumLots (levels.filter (fun l => l.id != levelId))
      let maxAllowed := totalLots - sumOfOthers
      let newLots := min totalLots (max 0.01 input)
      let cappedLots := min newLots maxAllowed
      levels.map (fun l => if l.id == levelId then { l with lots := cappedLots } else l)

/-- Modelled from the spec: the `toggleLock` operation (the
`onToggleLevelLock` prop's handler is missing from `src`): set the targeted
level's lock flag. -/
def toggleLevelLock (levels : List SlTpLevel) (levelId : ℕ) (locked : Bool) :
    List SlTpLevel :=
  levels.map (fun l => if l.id == levelId then { l with locked := locked } else l)

/-- A quantity lying on the 0.01 lot grid. -/
def LotStep (q : ℚ) : Prop := ∃ n : ℤ, q = n / 100

theorem LotStep.add' {a b : ℚ} (ha : LotStep a) (hb : LotStep b) : LotStep (a + b) := by
  obtain ⟨m, rfl⟩ := ha; obtain ⟨n, rfl⟩ := hb
  exact ⟨m + n, by push_cast; ring⟩

theorem LotStep.sub' {a b : ℚ} (ha : LotStep a) (hb : LotStep b) : LotStep (a - b) := by
  obtain ⟨m, rfl⟩ := ha; obtain ⟨n, rfl⟩ := hb
  exact ⟨m - n, by push_cast; ring⟩

theorem LotStep.min' {a b : ℚ} (ha : LotStep a) (hb : LotStep b) : LotStep (min a b) := by
  rcases le_total a b with h | h
  · rw [min_eq_left h]; exact ha
  · rw [min_eq_right h]; exact hb

theorem LotStep.max' {a b : ℚ} (ha : LotStep a) (hb : LotStep b) : LotStep (max a b) := by
  rcases le_total a b with h | h
  · rw [max_eq_right h]; exact hb
  · rw [max_eq_left h]; exact ha

theorem LotStep.hundredth : LotStep ((0.01 : ℚ)) := ⟨1, by norm_num⟩

theorem LotStep.ge_hundredth {q : ℚ} (hq : LotStep q) (hpos : 0 < q) : 1/100 ≤ q := by
  obtain ⟨n, rfl⟩ := hq
  have hn : 0 < n := by
    by_contra h
    push_neg at h
    have : (n : ℚ) / 100 ≤ 0 := by
      apply div_nonpos_of_nonpos_of_nonneg _ (by norm_num)
      exact_mod_cast h
    linarith
  have h1 : (1 : ℚ) ≤ (n : ℚ) := by exact_mod_cast hn
  linarith [(div_le_div_iff_of_pos_right (by norm_num : (0:ℚ) < 100)).mpr h1]

theorem lotStep_sumLots {levels : List SlTpLevel}
    (h : ∀ l ∈ levels, LotStep l.lots) : LotStep (sumLots levels) := by
  induction levels with
  | nil => exact ⟨0, by simp [sumLots]⟩
  | cons a ls ih =>
    have : sumLots (a :: ls) = a.lots + sumLots ls := by simp [sumLots]
    rw [this]
    exact LotStep.add' (h a (by simp)) (ih fun l hl => h l (by simp [hl]))

theorem sumLots_append_single (levels : List SlTpLevel) (x : SlTpLevel) :
    sumLots (levels ++ [x]) = sumLots levels + x.lots := by
  simp [sumLots]

theorem sumLots_filter_ne (levels : List SlTpLevel) (levelId : ℕ) (lv : SlTpLevel)
    (hfind : levels.find? (fun l => l.id == levelId) = some lv)
    (hnodup : (levels.map (·.id)).Nodup) :
    sumLots (levels.filter (fun l => l.id != levelId)) = sumLots levels - lv.lots := by
  induction levels with
  | nil => simp at hfind
  | cons a ls ih =>
    rw [List.map_cons, List.nodup_cons] at hnodup
    obtain ⟨hhead, htailnodup⟩ := hnodup
    rw [List.find?_cons] at hfind
    by_cases hid : a.id = levelId
    · have hbeq : (a.id == levelId) = true := beq_iff_eq.mpr hid
      rw [hbeq] at hfind
      injection hfind with hlv
      subst hlv
      have htail : ∀ l ∈ ls, (l.id != levelId) = true := by
        intro l hl
        have hlne : l.id ≠ a.id := by
          intro heq
          exact hhead (heq ▸ List.mem_map_of_mem (·.id) hl)
        simpa [bne_iff_ne] using hid ▸ hlne
      have hfa : (a.id != levelId) = false := by simp [bne, hbeq]
      rw [List.filter_cons, hfa]
      simp only [Bool.false_eq_true, if_false]
      rw [List.filter_eq_self.mpr htail]
      have : sumLots (a :: ls) = a.lots + sumLots ls := by simp [sumLots]
      rw [this]; ring
    · have hbeq : (a.id == levelId) = false := beq_eq_false_iff_ne.mpr hid
      rw [hbeq] at hfind
      simp only [Bool.false_eq_true, if_false] at hfind
      have := ih hfind htailnodup
      have hfa : (a.id != levelId) = true := by simp [bne, hbeq]
      rw [List.filter_cons, hfa]
      simp only [if_true]
      have h1 : sumLots (a :: ls.filter (fun l => l.id != levelId)) =
          a.lots + sumLots (ls.filter (fun l => l.id != levelId)) := by simp [sumLots]
      have h2 : sumLots (a :: ls) = a.lots + sumLots ls := by simp [sumLots]
      rw [h1, h2, this]; ring

theorem sumLots_map_set (levels : List SlTpLevel) (levelId : ℕ) (lv : SlTpLevel) (c : ℚ)
    (hfind : levels.find? (fun l => l.id == levelId) = some lv)
    (hnodup : (levels.map (·.id)).Nodup) :
    sumLots (levels.map (fun l => if l.id == levelId then { l with lots := c } else l)) =
      sumLots levels - lv.lots + c := by
  induction levels with
  | nil => simp at hfind
  | cons a ls ih =>
    rw [List.map_cons, List.nodup_cons] at hnodup
    obtain ⟨hhead, htailnodup⟩ := hnodup
    rw [List.find?_cons] at hfind
    by_cases hid : a.id = levelId
    · have hbeq : (a.id == levelId) = true := beq_iff_eq.mpr hid
      rw [hbeq] at hfind
      injection hfind with hlv
      subst hlv
      have htail : ls.map (fun l => if l.id == levelId then { l with lots := c } else l) = ls := by
        apply List.map_congr_left ?_ |>.trans (List.map_id ls)
        intro l hl
        have hlne : (l.id == levelId) = false := by
          apply beq_eq_false_iff_ne.mpr
          intro heq
          exact hhead ((hid ▸ heq : l.id = a.id) ▸ List.mem_map_of_mem (·.id) hl)
        simp [hlne]
      rw [List.map_cons, hbeq]
      simp only [if_true]
      rw [htail]
      have h1 : sumLots ({ a with lots := c } :: ls) = c + sumLots ls := by simp [sumLots]
      have h2 : sumLots (a :: ls) = a.lots + sumLots ls := by simp [sumLots]
      rw [h1, h2]; ring
    · have hbeq : (a.id == levelId) = false := beq_eq_false_iff_ne.mpr hid
      rw [hbeq] at hfind
      simp only [Bool.false_eq_true, if_false] at hfind
      have := ih hfind htailnodup
      rw [List.map_cons, hbeq]
      simp only [Bool.false_eq_true, if_false]
      have h1 : sumLots (a :: ls.map (fun l => if l.id == levelId then { l with lots := c } else l)) =
          a.lots + sumLots (ls.map (fun l => if l.id == levelId then { l with lots := c } else l)) := by
        simp [sumLots]
      have h2 : sumLots (a :: ls) = a.lots + sumLots ls := by simp [sumLots]
      rw [h1, h2, this]; ring

/-- Ids of a level set are exactly `1, 2, ..., n`, as generated by the
`` `tp-${levels.length + 1}` `` pattern under add-only id creation. -/
def IdsWF (levels : List SlTpLevel) : Prop :=
  levels.map (·.id) = List.range' 1 levels.length

theorem idsWF_nodup {levels : List SlTpLevel} (h : IdsWF levels) :
    (levels.map (·.id)).Nodup := by
  rw [h]
  exact List.nodup_range' 1 levels.length

theorem idsWF_nil : IdsWF [] := by simp [IdsWF]

theorem idsWF_append {levels : List SlTpLevel} (h : IdsWF levels)
    (price lots : ℚ) (locked : Bool) :
    IdsWF (levels ++ [⟨levels.length + 1, price, lots, locked⟩]) := by
  unfold IdsWF at h ⊢
  rw [List.map_append, h]
  simp [List.range'_concat, Nat.add_comm]

theorem idsWF_map_set {levels : List SlTpLevel} (h : IdsWF levels)
    (levelId : ℕ) (c : ℚ) :
    IdsWF (levels.map (fun l => if l.id == levelId then { l with lots := c } else l)) := by
  unfold IdsWF at h ⊢
  rw [List.map_map, List.length_map]
  have : ((fun l : SlTpLevel => l.id) ∘
      (fun l => if l.id == levelId then { l with lots := c } else l)) = (fun l => l.id) := by
    funext l
    by_cases hb : l.id = levelId <;> simp [hb]
  rw [this]
  exact h

/-- An `addLevel`/`updateLots` call through the public risk-level API. -/
inductive RiskOp where
  | add (price lots : ℚ)
  | update (levelId : ℕ) (input : ℚ)
deriving DecidableEq, Repr

def applyRiskOp (totalLots : ℚ) (levels : List SlTpLevel) : RiskOp → List SlTpLevel
  | .add price lots => addLevel levels totalLots price lots
  | .update levelId input => updateLots levels totalLots levelId input

def runRiskOps (totalLots : ℚ) (levels : List SlTpLevel) (ops : List RiskOp) :
    List SlTpLevel :=
  ops.foldl (applyRiskOp totalLots) levels

/-- Requests quantized to the 0.01 lot step (`LOTS_STEP`); the add request
must also be at least one step. -/
def OpWF : RiskOp → Prop
  | .add _ lots => 1/100 ≤ lots ∧ LotStep lots
  | .update _ input => LotStep input

/-- The risk-level-set invariant of the spec together with the auxiliary
facts the induction needs. -/
def LevelsWF (totalLots : ℚ) (levels : List SlTpLevel) : Prop :=
  sumLots levels ≤ totalLots ∧
  (∀ l ∈ levels, 1/100 ≤ l.lots ∧ LotStep l.lots) ∧
  IdsWF levels

theorem applyRiskOp_wf (totalLots : ℚ) (htot1 : 1/100 ≤ totalLots)
    (htot2 : LotStep totalLots) (levels : List SlTpLevel) (op : RiskOp)
    (hop : OpWF op) (hwf : LevelsWF totalLots levels) :
    LevelsWF totalLots (applyRiskOp totalLots levels op) := by
  obtain ⟨hsum, hmem, hids⟩ := hwf
  cases op with
  | add price lots =>
    simp only [applyRiskOp, addLevel]
    by_cases hrem : totalLots - sumLots levels ≤ 0
    · rw [if_pos hrem]; exact ⟨hsum, hmem, hids⟩
    · rw [if_neg hrem]
      push_neg at hrem
      have hremstep : LotStep (totalLots - sumLots levels) :=
        LotStep.sub' htot2 (lotStep_sumLots (fun l hl => (hmem l hl).2))
      have hrem01 : 1/100 ≤ totalLots - sumLots levels :=
        LotStep.ge_hundredth hremstep hrem
      obtain ⟨hlots01, hlotsstep⟩ := hop
      refine ⟨?_, ?_, idsWF_append hids price _ false⟩
      · rw [sumLots_append_single]
        have := min_le_right lots (totalLots - sumLots levels)
        simp only
        linarith
      · intro l hl
        rw [List.mem_append] at hl
        rcases hl with hl | hl
        · exact hmem l hl
        · rw [List.mem_singleton] at hl
          subst hl
          exact ⟨le_min hlots01 hrem01, LotStep.min' hlotsstep hremstep⟩
  | update levelId input =>
    simp only [applyRiskOp, updateLots]
    cases hfind : levels.find? (fun l => l.id == levelId) with
    | none => exact ⟨hsum, hmem, hids⟩
    | some lv =>
      by_cases hlock : lv.locked
      · simp only [hlock, if_true]
        exact ⟨hsum, hmem, hids⟩
      · rw [Bool.not_eq_true] at hlock
        simp only [hlock, Bool.false_eq_true, if_false]
        have hnodup := idsWF_nodup hids
        have hlvmem : lv ∈ levels := List.mem_of_find?_eq_some hfind
        obtain ⟨hlv01, hlvstep⟩ := hmem lv hlvmem
        have hothers := sumLots_filter_ne levels levelId lv hfind hnodup
        set capped := min (min totalLots (max 0.01 input))
          (totalLots - sumLots (levels.filter (fun l => l.id != levelId))) with hcdef
        have hsumstep : LotStep (sumLots levels) :=
          lotStep_sumLots (fun l hl => (hmem l hl).2)
        have hcapped01 : 1/100 ≤ capped := by
          apply le_min
          · apply le_min htot1
            have h1 : (0.01 : ℚ) ≤ max 0.01 input := le_max_left _ _
            have h2 : (1/100 : ℚ) = 0.01 := by norm_num
            linarith
          · rw [hothers]
            linarith
        have hcappedstep : LotStep capped := by
          rw [hcdef, hothers]
          exact LotStep.min' (LotStep.min' htot2 (LotStep.max' LotStep.hundredth hop))
            (LotStep.sub' htot2 (LotStep.sub' hsumstep hlvstep))
        refine ⟨?_, ?_, idsWF_map_set hids levelId capped⟩
        · rw [sumLots_map_set levels levelId lv capped hfind hnodup]
          have hle : capped ≤ totalLots - sumLots (levels.filter (fun l => l.id != levelId)) :=
            min_le_right _ _
          rw [hothers] at hle
          linarith
        · intro l' hl'
          rw [List.mem_map] at hl'
          obtain ⟨l, hl, rfl⟩ := hl'
          by_cases hb : (l.id == levelId) = true
          · simp only [hb, if_true]
            exact ⟨hcapped01, hcappedstep⟩
          · simp only [hb, Bool.false_eq_true, if_false] at *
            exact hmem l hl

theorem runRiskOps_wf (totalLots : ℚ) (htot1 : 1/100 ≤ totalLots)
    (htot2 : LotStep totalLots) (ops : List RiskOp) :
    ∀ levels, LevelsWF totalLots levels → (∀ op ∈ ops, OpWF op) →
    LevelsWF totalLots (runRiskOps totalLots levels ops) := by
  induction ops with
  | nil => intro levels hwf _; exact hwf
  | cons op ops ih =>
    intro levels hwf hops
    have hstep := applyRiskOp_wf totalLots htot1 htot2 levels op
      (hops op (by simp)) hwf
    exact ih (applyRiskOp totalLots levels op) hstep
      (fun o ho => hops o (by simp [ho]))

/-- Counterexample to C2 as stated: a single public `addLevel` call with
requested lots `0.005` on an empty set with capacity `1` creates a level
whose lots, `0.005`, are below the claimed floor of `0.01`. -/
theorem claim_C2_counterexample :
    (addLevel [] 1 (11/10) (5/1000)).map SlTpLevel.lots = [5/1000] ∧
    (5/1000 : ℚ) < 1/100 := by
  constructor
  · norm_num [addLevel, sumLots, min_def]
  · norm_num

/-- Unconditional preservation of the sum bound (and of the id
bookkeeping): no grid or range assumption on the requested lots is
needed — `addLevel` allocates at most the remaining capacity and
`updateLots` caps at `maxAllowed`. -/
theorem applyRiskOp_sum (totalLots : ℚ) (levels : List SlTpLevel) (op : RiskOp)
    (hsum : sumLots levels ≤ totalLots) (hids : IdsWF levels) :
    sumLots (applyRiskOp totalLots levels op) ≤ totalLots ∧
    IdsWF (applyRiskOp totalLots levels op) := by
  cases op with
  | add price lots =>
    simp only [applyRiskOp, addLevel]
    by_cases hrem : totalLots - sumLots levels ≤ 0
    · rw [if_pos hrem]; exact ⟨hsum, hids⟩
    · rw [if_neg hrem]
      refine ⟨?_, idsWF_append hids price _ false⟩
      rw [sumLots_append_single]
      have := min_le_right lots (totalLots - sumLots levels)
      simp only
      linarith
  | update levelId input =>
    simp only [applyRiskOp, updateLots]
    cases hfind : levels.find? (fun l => l.id == levelId) with
    | none => exact ⟨hsum, hids⟩
    | some lv =>
      by_cases hlock : lv.locked
      · simp only [hlock, if_true]
        exact ⟨hsum, hids⟩
      · rw [Bool.not_eq_true] at hlock
        simp only [hlock, Bool.false_eq_true, if_false]
        have hnodup := idsWF_nodup hids
        have hothers := sumLots_filter_ne levels levelId lv hfind hnodup
        set capped := min (min totalLots (max 0.01 input))
          (totalLots - sumLots (levels.filter (fun l => l.id != levelId))) with hcdef
        refine ⟨?_, idsWF_map_set hids levelId capped⟩
        rw [sumLots_map_set levels levelId lv capped hfind hnodup]
        have hle : capped ≤
            totalLots - sumLots (levels.filter (fun l => l.id != levelId)) :=
          min_le_right _ _
        rw [hothers] at hle
        linarith

theorem runRiskOps_sum (totalLots : ℚ) (ops : List RiskOp) :
    ∀ levels, sumLots levels ≤ totalLots → IdsWF levels →
    sumLots (runRiskOps totalLots levels ops) ≤ totalLots ∧
    IdsWF (runRiskOps totalLots levels ops) := by
  induction ops with
  | nil => intro levels hsum hids; exact ⟨hsum, hids⟩
  | cons op ops ih =>
    intro levels hsum hids
    obtain ⟨h1, h2⟩ := applyRiskOp_sum totalLots levels op hsum hids
    exact ih (applyRiskOp totalLots levels op) h1 h2

/-- Claim C2 (amended): the sum invariant `Σ level.lots ≤ position.lots`
holds after any sequence of public `addLevel`/`updateLots` calls, for any
request values whatsoever (only `0 ≤ position.lots` is needed, which the
data model's `lots > 0` guarantees).  The 0.01 floor additionally requires
the position lots and every requested lots value to lie on the 0.01 lot
grid (add requests ≥ 0.01): without that restriction the floor fails, see
the counterexample. -/
theorem claim_C2_invariant (totalLots : ℚ) (ops : List RiskOp)
    (htot0 : 0 ≤ totalLots) :
    sumLots (runRiskOps totalLots [] ops) ≤ totalLots ∧
    (1/100 ≤ totalLots → LotStep totalLots → (∀ op ∈ ops, OpWF op) →
      ∀ l ∈ runRiskOps totalLots [] ops, 1/100 ≤ l.lots) := by
  constructor
  · exact (runRiskOps_sum totalLots ops []
      (by simp [sumLots]; linarith) idsWF_nil).1
  · intro htot1 htot2 hops
    have h := runRiskOps_wf totalLots htot1 htot2 ops []
      ⟨by simp [sumLots]; linarith, by simp, idsWF_nil⟩ hops
    exact fun l hl => (h.2.1 l hl).1

/-- Witness for the amended C2: the sum bound on an off-grid sequence (the
very inputs of the counterexample), with only `0 ≤ position.lots`
discharged. -/
theorem claim_C2_invariant_witness :
    sumLots (runRiskOps 1 [] [.add (11/10) (5/1000), .update 1 (3/1000)]) ≤ 1 :=
  (claim_C2_invariant 1 [.add (11/10) (5/1000), .update 1 (3/1000)]
    (by norm_num)).1

/-- Claim C6: `addLevel` is a no-op when the remaining capacity is ≤ 0 and
otherwise allocates `min(lots, position.lots − Σ existing lots)`; in
Scenario B (BUY 1.0 lot, two take-profit adds of 0.6), the second level gets
exactly 0.4 lots instead of being rejected. -/
theorem claim_C6_addLevel_clamps :
    (∀ (levels : List SlTpLevel) (totalLots price lots : ℚ),
      totalLots - sumLots levels ≤ 0 →
      addLevel levels totalLots price lots = levels) ∧
    (∀ (levels : List SlTpLevel) (totalLots price lots : ℚ),
      0 < totalLots - sumLots levels →
      addLevel levels totalLots price lots =
        levels ++ [⟨levels.length + 1, price,
          min lots (totalLots - sumLots levels), false⟩]) ∧
    (addLevel (addLevel [] 1 (1105/1000) (6/10)) 1 (111/100) (6/10)).map
        SlTpLevel.lots = [6/10, 4/10] := by
  refine ⟨?_, ?_, ?_⟩
  · intro levels totalLots price lots h
    simp only [addLevel, if_pos h]
  · intro levels totalLots price lots h
    simp only [addLevel, if_neg (not_le.mpr h)]
  · norm_num [addLevel, sumLots, min_def]

/-- Witness for C6: a full set rejects a further add. -/
theorem claim_C6_addLevel_clamps_witness :
    addLevel [⟨1, 1105/1000, 1, false⟩] 1 (111/100) (6/10) =
      [⟨1, 1105/1000, 1, false⟩] :=
  claim_C6_addLevel_clamps.1 [⟨1, 1105/1000, 1, false⟩] 1 (111/100) (6/10)
    (by norm_num [sumLots])

/-- Claim C9: a locked level ignores `updateLots` (lots unchanged), while a
valid `updatePrice` still succeeds — the price-update handler never
consults the lock flags.  The third conjunct is Scenario C concretely:
lock the level, then a lots update is a no-op. -/
theorem claim_C9_locked_level :
    (∀ (levels : List SlTpLevel) (totalLots : ℚ) (levelId : ℕ) (input : ℚ)
      (lv : SlTpLevel),
      levels.find? (fun l => l.id == levelId) = some lv → lv.locked = true →
      updateLots levels totalLots levelId input = levels) ∧
    (∀ (trades : List TradeLog) (tradeId : ℕ) (lineType : LineType)
      (newPrice : ℚ) (i : ℕ) (hi : i < trades.length),
      (trades.get ⟨i, hi⟩).id = tradeId →
      (trades.get ⟨i, hi⟩).lockedSl = true →
      (trades.get ⟨i, hi⟩).lockedTp = true →
      isValidSlTpPrice (trades.get ⟨i, hi⟩) lineType newPrice = true →
      (handleTradePriceUpdate trades tradeId lineType newPrice).get
        ⟨i, by simpa [handleTradePriceUpdate] using hi⟩ =
        setTradePrice (trades.get ⟨i, hi⟩) lineType newPrice) ∧
    (updateLots (toggleLevelLock [⟨1, 1105/1000, 6/10, false⟩] 1 true) 1 1 (1/2) =
      toggleLevelLock [⟨1, 1105/1000, 6/10, false⟩] 1 true) := by
  refine ⟨?_, ?_, ?_⟩
  · intro levels totalLots levelId input lv hfind hlock
    simp only [updateLots, hfind, hlock, if_true]
  · intro trades tradeId lineType newPrice i hi hid hsl htp hvalid
    simp only [handleTradePriceUpdate, List.get_eq_getElem, List.getElem_map]
    rw [if_pos ⟨hid, hvalid⟩]
  · rfl

/-- Witness for C9: the concrete Scenario C conjunct. -/
theorem claim_C9_locked_level_witness :
    updateLots (toggleLevelLock [⟨1, 1105/1000, 6/10, false⟩] 1 true) 1 1 (1/2) =
      toggleLevelLock [⟨1, 1105/1000, 6/10, false⟩] 1 true :=
  claim_C9_locked_level.2.2

/-- `evolveRegime` from `mock-forex-stream.ts`: decrement `ticksRemaining`
and, when it reaches ≤ 0, replace every field by a freshly sampled regime
(the `sampleRegime()` draw is injected as `fresh`). -/
def evolveRegime (regime fresh : RegimeState) : RegimeState :=
  if regime.ticksRemaining - 1 ≤ 0 then fresh
  else { regime with ticksRemaining := regime.ticksRemaining - 1 }

/-- The injected randomness of the generator: per global step `k`, the
`randomNormal(0, volatility)` outcome and the regime that `sampleRegime()`
would produce if consulted at that step. -/
structure RandomDraws where
  noise : ℕ → ℚ
  fresh : ℕ → RegimeState

/-- One simulated step of the shared price process: `price = nextPrice(...)`
followed by `evolveRegime(regime)`, at global step index `k`. -/
def streamStepSim (opts : StreamOptions) (draws : RandomDraws) (k : ℕ)
    (s : ℚ × RegimeState) : ℚ × RegimeState :=
  let pr := nextPrice s.1 s.2 opts (draws.noise k)
  (pr.1, evolveRegime pr.2 (draws.fresh k))

/-- `c` steps of the price process starting at global step index `k0`. -/
def iterFrom (opts : StreamOptions) (draws : RandomDraws) :
    ℕ → ℕ → (ℚ × RegimeState) → (ℚ × RegimeState)
  | _, 0, s => s
  | k0, c+1, s => iterFrom opts draws (k0+1) c (streamStepSim opts draws k0 s)

/-- `CandlestickBar` from `mock-forex-stream.ts`; the bar time is an
integer (it can go below zero only for astronomically large `barCount`,
but the JS number is signed, so we model it in `ℤ`). -/
structure CandlestickBar where
  time : ℤ
  opn : ℚ
  high : ℚ
  low : ℚ
  close : ℚ
deriving DecidableEq, Repr

/-- The inner `for (let t = 0; t < M5_PERIOD_SECONDS; t++)` loop of
`generateInitialM5Bars`: run `c` one-second steps from global index `k0`,
tracking the running high/low of the emitted prices. -/
def runM5Steps (opts : StreamOptions) (draws : RandomDraws) :
    ℕ → ℕ → ℚ → RegimeState → ℚ → ℚ → ℚ × RegimeState × ℚ × ℚ
  | _, 0, p, r, high, low => (p, r, high, low)
  | k0, c+1, p, r, high, low =>
    let s := streamStepSim opts draws k0 (p, r)
    runM5Steps opts draws (k0+1) c s.1 s.2 (max high s.1) (min low s.1)

/-- The bar-building loop of `generateInitialM5Bars`: bar `i` opens at the
current price, folds 300 one-second steps, and closes at the resulting
price. -/
def genBarsAux (opts : StreamOptions) (draws : RandomDraws) (startBarTime : ℤ) :
    ℕ → ℕ → ℚ → RegimeState → List CandlestickBar
  | _, 0, _, _ => []
  | i, rem+1, price, regime =>
    let res := runM5Steps opts draws (i * M5_PERIOD_SECONDS) M5_PERIOD_SECONDS
      price regime price price
    ⟨startBarTime + i * M5_PERIOD_SECONDS, roundToPrecision price,
      roundToPrecision res.2.2.1, roundToPrecision res.2.2.2,
      roundToPrecision res.1⟩ ::
      genBarsAux opts draws startBarTime (i+1) rem res.1 res.2.1

/-- `generateInitialM5Bars` from `mock-forex-stream.ts`, with `Date.now()`
injected as `now` (in seconds) and the random draws injected as `draws`;
`regime0` is the initial `sampleRegime()` result. -/
def generateInitialM5Bars (barCount : ℕ) (opts : StreamOptions) (now : ℕ)
    (draws : RandomDraws) (regime0 : RegimeState) : List CandlestickBar :=
  let startBarTime : ℤ :=
    ((now / M5_PERIOD_SECONDS : ℕ) : ℤ) * M5_PERIOD_SECONDS -
      (barCount : ℤ) * M5_PERIOD_SECONDS
  genBarsAux opts draws startBarTime 0 barCount opts.basePrice regime0

theorem runM5Steps_state (opts : StreamOptions) (draws : RandomDraws) :
    ∀ (c k0 : ℕ) (p : ℚ) (r : RegimeState) (high low : ℚ),
    ((runM5Steps opts draws k0 c p r high low).1,
     (runM5Steps opts draws k0 c p r high low).2.1) =
      iterFrom opts draws k0 c (p, r) := by
  intro c
  induction c with
  | zero => intro k0 p r high low; rfl
  | succ n ih =>
    intro k0 p r high low
    simp only [runM5Steps, iterFrom]
    exact ih (k0+1) _ _ _ _

theorem iterFrom_add (opts : StreamOptions) (draws : RandomDraws) :
    ∀ (c1 c2 k0 : ℕ) (s : ℚ × RegimeState),
    iterFrom opts draws k0 (c1 + c2) s =
      iterFrom opts draws (k0 + c1) c2 (iterFrom opts draws k0 c1 s) := by
  intro c1
  induction c1 with
  | zero => intro c2 k0 s; simp [iterFrom]
  | succ n ih =>
    intro c2 k0 s
    have h1 : n + 1 + c2 = (n + c2) + 1 := by omega
    rw [h1]
    simp only [iterFrom]
    rw [ih c2 (k0+1) (streamStepSim opts draws k0 s)]
    congr 1
    omega

theorem runM5Steps_fst (opts : StreamOptions) (draws : RandomDraws)
    (c k0 : ℕ) (p : ℚ) (r : RegimeState) (high low : ℚ) :
    (runM5Steps opts draws k0 c p r high low).1 =
      (iterFrom opts draws k0 c (p, r)).1 :=
  congrArg Prod.fst (runM5Steps_state opts draws c k0 p r high low)

theorem runM5Steps_snd (opts : StreamOptions) (draws : RandomDraws)
    (c k0 : ℕ) (p : ℚ) (r : RegimeState) (high low : ℚ) :
    (runM5Steps opts draws k0 c p r high low).2.1 =
      (iterFrom opts draws k0 c (p, r)).2 :=
  congrArg Prod.snd (runM5Steps_state opts draws c k0 p r high low)

theorem genBarsAux_spec (opts : StreamOptions) (draws : RandomDraws)
    (startBarTime : ℤ) (s0 : ℚ × RegimeState) :
    ∀ (rem i : ℕ),
    (genBarsAux opts draws startBarTime i rem
        (iterFrom opts draws 0 (i * M5_PERIOD_SECONDS) s0).1
        (iterFrom opts draws 0 (i * M5_PERIOD_SECONDS) s0).2).length = rem ∧
    (∀ (j : ℕ) (b : CandlestickBar),
      (genBarsAux opts draws startBarTime i rem
        (iterFrom opts draws 0 (i * M5_PERIOD_SECONDS) s0).1
        (iterFrom opts draws 0 (i * M5_PERIOD_SECONDS) s0).2)[j]? = some b →
      b.time = startBarTime + ((i + j : ℕ) : ℤ) * (M5_PERIOD_SECONDS : ℤ) ∧
      b.opn = roundToPrecision
        (iterFrom opts draws 0 ((i + j) * M5_PERIOD_SECONDS) s0).1 ∧
      b.close = roundToPrecision
        (iterFrom opts draws 0 ((i + j) * M5_PERIOD_SECONDS + M5_PERIOD_SECONDS) s0).1) := by
  intro rem
  induction rem with
  | zero =>
    intro i
    refine ⟨rfl, ?_⟩
    intro j b hb
    simp [genBarsAux] at hb
  | succ n ih =>
    intro i
    have hcomp : iterFrom opts draws (i * M5_PERIOD_SECONDS) M5_PERIOD_SECONDS
        ((iterFrom opts draws 0 (i * M5_PERIOD_SECONDS) s0).1,
         (iterFrom opts draws 0 (i * M5_PERIOD_SECONDS) s0).2) =
        iterFrom opts draws 0 ((i + 1) * M5_PERIOD_SECONDS) s0 := by
      rw [Prod.mk.eta]
      have h1 : (i + 1) * M5_PERIOD_SECONDS =
          i * M5_PERIOD_SECONDS + M5_PERIOD_SECONDS := by ring
      rw [h1, iterFrom_add opts draws (i * M5_PERIOD_SECONDS) M5_PERIOD_SECONDS 0 s0]
      simp
    have hfst := runM5Steps_fst opts draws M5_PERIOD_SECONDS
      (i * M5_PERIOD_SECONDS)
      (iterFrom opts draws 0 (i * M5_PERIOD_SECONDS) s0).1
      (iterFrom opts draws 0 (i * M5_PERIOD_SECONDS) s0).2
      (iterFrom opts draws 0 (i * M5_PERIOD_SECONDS) s0).1
      (iterFrom opts draws 0 (i * M5_PERIOD_SECONDS) s0).1
    have hsnd := runM5Steps_snd opts draws M5_PERIOD_SECONDS
      (i * M5_PERIOD_SECONDS)
      (iterFrom opts draws 0 (i * M5_PERIOD_SECONDS) s0).1
      (iterFrom opts draws 0 (i * M5_PERIOD_SECONDS) s0).2
      (iterFrom opts draws 0 (i * M5_PERIOD_SECONDS) s0).1
      (iterFrom opts draws 0 (i * M5_PERIOD_SECONDS) s0).1
    rw [hcomp] at hfst hsnd
    obtain ⟨ihlen, ihidx⟩ := ih (i + 1)
    constructor
    · simp only [genBarsAux, List.length_cons]
      rw [hfst, hsnd, ihlen]
    · intro j b hb
      simp only [genBarsAux] at hb
      rw [hfst, hsnd] at hb
      cases j with
      | zero =>
        rw [List.getElem?_cons_zero] at hb
        injection hb with hb
        subst hb
        refine ⟨by push_cast; ring, rfl, ?_⟩
        simp only [hfst]
        have : (i + 1) * M5_PERIOD_SECONDS =
            (i + 0) * M5_PERIOD_SECONDS + M5_PERIOD_SECONDS := by ring
        rw [this]
      | succ j' =>
        rw [List.getElem?_cons_succ] at hb
        obtain ⟨ht, ho, hc⟩ := ihidx j' b hb
        have hidx : i + 1 + j' = i + (j' + 1) := by omega
        rw [hidx] at ht ho hc
        exact ⟨ht, ho, hc⟩

/-- Claim C8: `generateInitialM5Bars(N, opts)` returns exactly `N` bars,
oldest first, with bar `j`'s time equal to
`floor(now/300)*300 − (N − j)*300` (so the last bar's time is
`floor(now/300)*300 − 300`), and each bar spanning exactly 300 one-second
steps of the single shared price process: bar `j` opens at the trajectory
price after `300·j` steps and closes at the price after `300·(j+1)` steps. -/
theorem claim_C8_generateBars (barCount : ℕ) (opts : StreamOptions) (now : ℕ)
    (draws : RandomDraws) (regime0 : RegimeState) :
    (generateInitialM5Bars barCount opts now draws regime0).length = barCount ∧
    (∀ (j : ℕ) (b : CandlestickBar),
      (generateInitialM5Bars barCount opts now draws regime0)[j]? = some b →
      b.time = ((now / M5_PERIOD_SECONDS : ℕ) : ℤ) * (M5_PERIOD_SECONDS : ℤ) -
        ((barCount : ℤ) - (j : ℤ)) * (M5_PERIOD_SECONDS : ℤ) ∧
      b.opn = roundToPrecision
        (iterFrom opts draws 0 (j * M5_PERIOD_SECONDS) (opts.basePrice, regime0)).1 ∧
      b.close = roundToPrecision
        (iterFrom opts draws 0 (j * M5_PERIOD_SECONDS + M5_PERIOD_SECONDS)
          (opts.basePrice, regime0)).1) ∧
    (∀ b : CandlestickBar,
      (generateInitialM5Bars barCount opts now draws regime0).getLast? = some b →
      b.time = ((now / M5_PERIOD_SECONDS : ℕ) : ℤ) * (M5_PERIOD_SECONDS : ℤ) -
        (M5_PERIOD_SECONDS : ℤ)) := by
  have h0 : iterFrom opts draws 0 (0 * M5_PERIOD_SECONDS)
      (opts.basePrice, regime0) = (opts.basePrice, regime0) := by
    rw [Nat.zero_mul]
    simp [iterFrom]
  obtain ⟨hlen0, hidx0⟩ := genBarsAux_spec opts draws
    (((now / M5_PERIOD_SECONDS : ℕ) : ℤ) * (M5_PERIOD_SECONDS : ℤ) -
      (barCount : ℤ) * (M5_PERIOD_SECONDS : ℤ)) (opts.basePrice, regime0)
    barCount 0
  rw [h0] at hlen0 hidx0
  have hlen : (generateInitialM5Bars barCount opts now draws regime0).length =
      barCount := hlen0
  have hidx : ∀ (j : ℕ) (b : CandlestickBar),
      (generateInitialM5Bars barCount opts now draws regime0)[j]? = some b →
      b.time = ((now / M5_PERIOD_SECONDS : ℕ) : ℤ) * (M5_PERIOD_SECONDS : ℤ) -
        ((barCount : ℤ) - (j : ℤ)) * (M5_PERIOD_SECONDS : ℤ) ∧
      b.opn = roundToPrecision
        (iterFrom opts draws 0 (j * M5_PERIOD_SECONDS) (opts.basePrice, regime0)).1 ∧
      b.close = roundToPrecision
        (iterFrom opts draws 0 (j * M5_PERIOD_SECONDS + M5_PERIOD_SECONDS)
          (opts.basePrice, regime0)).1 := by
    intro j b hb
    obtain ⟨ht, ho, hc⟩ := hidx0 j b hb
    rw [Nat.zero_add] at ht ho hc
    refine ⟨?_, ho, hc⟩
    rw [ht]
    push_cast
    ring
  refine ⟨hlen, hidx, ?_⟩
  intro b hb
  have hne : generateInitialM5Bars barCount opts now draws regime0 ≠ [] := by
    intro he
    rw [he] at hb
    simp at hb
  have hpos : 0 < barCount := by
    rw [← hlen]
    exact List.length_pos.mpr hne
  rw [List.getLast?_eq_getElem?, hlen] at hb
  have hmain := (hidx (barCount - 1) b hb).1
  rw [hmain]
  have h1 : ((barCount : ℤ) - ((barCount - 1 : ℕ) : ℤ)) = 1 := by
    have h2 : (1:ℕ) ≤ barCount := hpos
    push_cast [Nat.cast_sub h2]
    ring
  rw [h1]
  ring

/-- State of one `createMockForexStream` handle (`mock-forex-stream.ts`):
`onTick` is the single subscriber slot (the callback of the most recent
`subscribe`, modelled by an id), `current` records whether `intervalId` is
non-null, `leaked` counts intervals started by earlier `subscribe` calls and
never cleared (a second `subscribe` overwrites `intervalId` without
`clearInterval`; `stop` clears only the current one), and `samples` counts
the logical samples generated so far (each timer firing advances `price`
and `timeSec` once, producing one fresh sample). -/
structure StreamState where
  onTick : Option ℕ
  current : Bool
  leaked : ℕ
  samples : ℕ
deriving DecidableEq, Repr

/-- The externally observable events of the stream handle: a `subscribe`
call, a `stop` call, or one timer firing. -/
inductive StreamEvent where
  | subscribe (sid : ℕ)
  | stop
  | fire
deriving DecidableEq, Repr

/-- The state of a freshly created stream handle. -/
def initStream : StreamState := ⟨none, false, 0, 0⟩

/-- One event of `createMockForexStream`: `subscribe` overwrites `onTick`
and starts a new interval (leaking a running one); `stop` clears the current
interval and the subscriber; a timer firing generates exactly one fresh
sample and delivers it to the current `onTick` callback if any (`onTick?.`).
A firing can only happen while some interval is live.  The emitted
deliveries are `(sample index, subscriber id)` pairs. -/
def streamStep (s : StreamState) : StreamEvent → StreamState × List (ℕ × ℕ)
  | .subscribe sid =>
    (⟨some sid, true, s.leaked + (if s.current then 1 else 0), s.samples⟩, [])
  | .stop => (⟨none, false, s.leaked, s.samples⟩, [])
  | .fire =>
    if s.current = true ∨ 0 < s.leaked then
      (⟨s.onTick, s.current, s.leaked, s.samples + 1⟩,
       match s.onTick with
       | some sid => [(s.samples + 1, sid)]
       | none => [])
    else (s, [])

/-- Run a sequence of events, collecting the delivery trace. -/
def streamRun (s : StreamState) : List StreamEvent → StreamState × List (ℕ × ℕ)
  | [] => (s, [])
  | e :: es =>
    ((streamRun (streamStep s e).1 es).1,
     (streamStep s e).2 ++ (streamRun (streamStep s e).1 es).2)

/-- The callback of the most recent `subscribe` not followed by a `stop` —
the "currently-registered subscriber" after a sequence of events. -/
def subscriberAfter (events : List StreamEvent) : Option ℕ :=
  events.foldl (fun acc e =>
    match e with
    | .subscribe sid => some sid
    | .stop => none
    | .fire => acc) none

theorem streamStep_samples_le (s : StreamState) (e : StreamEvent) :
    s.samples ≤ (streamStep s e).1.samples := by
  cases e with
  | subscribe sid => exact le_refl _
  | stop => exact le_refl _
  | fire =>
    by_cases h : s.current = true ∨ 0 < s.leaked
    · simp only [streamStep, if_pos h]
      exact Nat.le_succ _
    · simp only [streamStep, if_neg h]
      exact le_refl _

theorem streamStep_trace (s : StreamState) (e : StreamEvent) :
    ∀ k ∈ ((streamStep s e).2.map Prod.fst),
      s.samples < k ∧ k ≤ (streamStep s e).1.samples := by
  cases e with
  | subscribe sid => intro k hk; simp [streamStep] at hk
  | stop => intro k hk; simp [streamStep] at hk
  | fire =>
    intro k hk
    by_cases h : s.current = true ∨ 0 < s.leaked
    · simp only [streamStep, if_pos h] at hk ⊢
      cases ht : s.onTick with
      | none => rw [ht] at hk; simp at hk
      | some sid =>
        rw [ht] at hk
        simp at hk
        omega
    · simp only [streamStep, if_neg h] at hk
      simp at hk

theorem streamStep_trace_cases (s : StreamState) (e : StreamEvent) :
    (streamStep s e).2 = [] ∨ ∃ x, (streamStep s e).2 = [x] := by
  cases e with
  | subscribe sid => left; rfl
  | stop => left; rfl
  | fire =>
    by_cases h : s.current = true ∨ 0 < s.leaked
    · simp only [streamStep, if_pos h]
      cases s.onTick with
      | none => left; rfl
      | some sid => right; exact ⟨_, rfl⟩
    · simp only [streamStep, if_neg h]
      left; trivial

theorem streamRun_spec (events : List StreamEvent) :
    ∀ s : StreamState,
    s.samples ≤ (streamRun s events).1.samples ∧
    (∀ k ∈ ((streamRun s events).2.map Prod.fst),
      s.samples < k ∧ k ≤ (streamRun s events).1.samples) ∧
    ((streamRun s events).2.map Prod.fst).Pairwise (· < ·) := by
  induction events with
  | nil =>
    intro s
    refine ⟨le_refl _, ?_, ?_⟩
    · intro k hk; simp [streamRun] at hk
    · simp [streamRun]
  | cons e es ih =>
    intro s
    obtain ⟨ih1, ih2, ih3⟩ := ih (streamStep s e).1
    have hstep := streamStep_samples_le s e
    refine ⟨le_trans hstep ih1, ?_, ?_⟩
    · intro k hk
      simp only [streamRun, List.map_append, List.mem_append] at hk
      rcases hk with hk | hk
      · obtain ⟨h1, h2⟩ := streamStep_trace s e k hk
        exact ⟨h1, le_trans h2 ih1⟩
      · obtain ⟨h1, h2⟩ := ih2 k hk
        exact ⟨lt_of_le_of_lt hstep h1, h2⟩
    · simp only [streamRun, List.map_append]
      rw [List.pairwise_append]
      refine ⟨?_, ih3, ?_⟩
      · rcases streamStep_trace_cases s e with h | ⟨x, h⟩
        · rw [h]; exact List.Pairwise.nil
        · rw [h]; simp
      · intro a ha b hb
        have h1 := (streamStep_trace s e a ha).2
        have h2 := (ih2 b hb).1
        omega

theorem streamRun_onTick (events : List StreamEvent) :
    ∀ (s : StreamState),
    (streamRun s events).1.onTick =
      events.foldl (fun acc e =>
        match e with
        | StreamEvent.subscribe sid => some sid
        | StreamEvent.stop => none
        | StreamEvent.fire => acc) s.onTick := by
  induction events with
  | nil => intro s; rfl
  | cons e es ih =>
    intro s
    simp only [streamRun, List.foldl_cons]
    rw [ih (streamStep s e).1]
    congr 1
    cases e with
    | subscribe sid => rfl
    | stop => rfl
    | fire =>
      by_cases h : s.current = true ∨ 0 < s.leaked
      · simp only [streamStep, if_pos h]
      · simp only [streamStep, if_neg h]

theorem streamRun_current (events : List StreamEvent) :
    ∀ (s : StreamState), (s.onTick.isSome → s.current = true) →
    ((streamRun s events).1.onTick.isSome → (streamRun s events).1.current = true) := by
  induction events with
  | nil => intro s h; exact h
  | cons e es ih =>
    intro s h
    apply ih
    cases e with
    | subscribe sid => intro _; rfl
    | stop => intro hc; simp [streamStep] at hc
    | fire =>
      by_cases hg : s.current = true ∨ 0 < s.leaked
      · simp only [streamStep, if_pos hg]
        exact h
      · simp only [streamStep, if_neg hg]
        exact h

/-- Claim C7: along any subscribe/stop/fire sequence, no two deliveries
carry the same logical sample, every firing delivers at most one tick, and
each firing delivers exactly one tick to the currently-registered
subscriber (the most recent `subscribe`, unless stopped) — also when
`subscribe` has been called more than once. -/
theorem claim_C7_single_delivery (events : List StreamEvent) :
    ((streamRun initStream events).2.map Prod.fst).Nodup ∧
    (∀ s : StreamState, (streamStep s .fire).2.length ≤ 1) ∧
    (∀ pre post, events = pre ++ StreamEvent.fire :: post →
      (streamStep (streamRun initStream pre).1 .fire).2 =
        match subscriberAfter pre with
        | some sid => [((streamRun initStream pre).1.samples + 1, sid)]
        | none => []) := by
  refine ⟨?_, ?_, ?_⟩
  · exact ((streamRun_spec events initStream).2.2).imp (fun h => Nat.ne_of_lt h)
  · intro s
    rcases streamStep_trace_cases s .fire with h | ⟨x, h⟩ <;> simp [h]
  · intro pre post heq
    have honTick : (streamRun initStream pre).1.onTick = subscriberAfter pre := by
      rw [streamRun_onTick pre initStream]; rfl
    cases hsub : subscriberAfter pre with
    | none =>
      rw [hsub] at honTick
      by_cases hg : (streamRun initStream pre).1.current = true ∨
          0 < (streamRun initStream pre).1.leaked
      · simp only [streamStep, if_pos hg, honTick]
      · simp only [streamStep, if_neg hg]
    | some sid =>
      rw [hsub] at honTick
      have hcur : (streamRun initStream pre).1.current = true :=
        streamRun_current pre initStream (by intro h; simp [initStream] at h)
          (by rw [honTick]; rfl)
      have hg : (streamRun initStream pre).1.current = true ∨
          0 < (streamRun initStream pre).1.leaked := Or.inl hcur
      simp only [streamStep, if_pos hg, honTick]

/-- Witness for C7: the firing after a single subscribe delivers sample 1
to subscriber 5. -/
theorem claim_C7_single_delivery_witness :
    (streamStep (streamRun initStream [StreamEvent.subscribe 5]).1 .fire).2 = [(1, 5)] := by
  have h := (claim_C7_single_delivery [StreamEvent.subscribe 5, StreamEvent.fire]).2.2
    [StreamEvent.subscribe 5] [] rfl
  exact h.trans rfl

/-- Witness for C8: Scenario A's bar count at a concrete clock and draw
stream. -/
theorem claim_C8_generateBars_witness :
    (generateInitialM5Bars 24 DEFAULTS 1000000
      ⟨fun _ => 0, fun _ => ⟨.RANGE, 0, 0, 10⟩⟩ ⟨.RANGE, 0, 0, 10⟩).length = 24 :=
  (claim_C8_generateBars 24 DEFAULTS 1000000
    ⟨fun _ => 0, fun _ => ⟨.RANGE, 0, 0, 10⟩⟩ ⟨.RANGE, 0, 0, 10⟩).1
